import Mathlib

/-!
Verification of the ECS core of the `rendering-api-comparer` repository.

The development shallowly embeds:
* `Engine::Utils::SparseSet` / `SparseSetBase` (SparseSet.h, inlined in
  `DirectXRenderer.cpp`): a sparse/dense associative container mapping entity
  ids to component values, with swap-remove compaction;
* `Engine::SystemsManager` (SystemsManager.h): the priority-ordered system
  scheduler with deferred add/remove queues;
* `Engine::GameController::run` (GameController.cpp): the main loop and its
  delta-time measurement.

C++ vectors become Lean lists, machine `int` entries of `_sparse` become
`Int` with the sentinel `-1`, unchecked vector indexing becomes `Option`
lookups, and boolean-returning mutating member functions become functions
returning a `Bool × state` pair.
-/

namespace Engine

namespace Utils

/-- State of `Engine::Utils::SparseSet<ElemType, IDType>` (with
`SparseSetBase`'s `_sparse` and `_denseEntities` folded in): `sparse` maps an
entity id to its index in the dense array (`-1` = absent), `dense` stores the
component values, `denseEntities` maps a dense index back to its entity id. -/
structure SparseSet (α : Type) where
  sparse : List Int
  dense : List α
  denseEntities : List Nat
deriving Repr

namespace SparseSet

/-- A freshly constructed sparse set: all three vectors empty. -/
def empty {α : Type} : SparseSet α := ⟨[], [], []⟩

/-- Embeds `SparseSetBase::isPresent`: `_sparse.size() > entity && _sparse[entity] != -1`. -/
def isPresent {α : Type} (s : SparseSet α) (e : Nat) : Bool :=
  decide (e < s.sparse.length) && decide (s.sparse.getD e (-1) ≠ -1)

/-- Embeds `SparseSetBase::size`: `_denseEntities.size()`. -/
def size {α : Type} (s : SparseSet α) : Nat := s.denseEntities.length

/-- Embeds `SparseSetBase::getIds`: read-only view of `_denseEntities`. -/
def getIds {α : Type} (s : SparseSet α) : List Nat := s.denseEntities

/-- Embeds `SparseSet::getElement`: `_dense[_sparse[entity]]` — unchecked in C++
(documented precondition that the id is present), embedded with both
indexings made fallible. -/
def getElement {α : Type} (s : SparseSet α) (e : Nat) : Option α :=
  match s.sparse.get? e with
  | some (Int.ofNat i) => s.dense.get? i
  | _ => none

/-- The guarded growth step of `SparseSet::addElement`:
`if (_sparse.size() <= entity) _sparse.resize(entity + 1, -1);`. -/
def growSparse (l : List Int) (e : Nat) : List Int :=
  if l.length ≤ e then l ++ List.replicate (e + 1 - l.length) (-1) else l

/-- Embeds `SparseSet::addElement`: fails if the id is present; otherwise grows
`_sparse` to `entity + 1` filling with `-1`, stores the current dense size
in `_sparse[entity]`, and appends the value and the id to `_dense` and
`_denseEntities`. -/
def addElement {α : Type} (s : SparseSet α) (e : Nat) (v : α) :
    Bool × SparseSet α :=
  if s.isPresent e then (false, s)
  else
    (true,
      { sparse := (growSparse s.sparse e).set e (Int.ofNat s.dense.length)
        dense := s.dense ++ [v]
        denseEntities := s.denseEntities ++ [e] })

/-- The trailing-sentinel trimming loop at the end of
`SparseSet::removeElement`:
`while (!_sparse.empty() && _sparse[_sparse.size() - 1] == -1) _sparse.pop_back();`
i.e. drop the longest suffix of `-1` entries. -/
def trimTrailingAbsent : List Int → List Int
  | [] => []
  | x :: xs =>
    match trimTrailingAbsent xs with
    | [] => if x = -1 then [] else [x]
    | ys => x :: ys

/-- Embeds `SparseSet::removeElement`: fails if the id is absent; otherwise copies
the last dense slot over the removed one (in `_dense` and `_denseEntities`),
repoints `_sparse` at the moved entity, pops the last slot of both dense
arrays, marks `_sparse[entity] = -1`, and trims trailing `-1` entries from
`_sparse`. -/
def removeElement {α : Type} [Inhabited α] (s : SparseSet α) (e : Nat) :
    Bool × SparseSet α :=
  if !(s.isPresent e) then (false, s)
  else
    let denseIndex := (s.sparse.getD e (-1)).toNat
    let lastDenseIndex := s.dense.length - 1
    let dense1 := s.dense.set denseIndex (s.dense.getD lastDenseIndex default)
    let denseEntities1 :=
      s.denseEntities.set denseIndex (s.denseEntities.getD lastDenseIndex 0)
    let sparse1 :=
      s.sparse.set (denseEntities1.getD denseIndex 0) (Int.ofNat denseIndex)
    (true,
      { sparse := trimTrailingAbsent (sparse1.set e (-1))
        dense := dense1.dropLast
        denseEntities := denseEntities1.dropLast })

/-! ### The structural invariant and the abstract-map refinement -/

/-- The structural invariant of the sparse set (spec §3): the two dense
arrays have equal length, every dense slot's entity points back at that slot
through `sparse`, and every live `sparse` entry is a valid dense index whose
slot holds that entity. -/
def Inv {α : Type} (s : SparseSet α) : Prop :=
  s.dense.length = s.denseEntities.length ∧
  (∀ i, i < s.denseEntities.length →
    s.denseEntities.getD i 0 < s.sparse.length ∧
    s.sparse.getD (s.denseEntities.getD i 0) (-1) = Int.ofNat i) ∧
  (∀ e, e < s.sparse.length → s.sparse.getD e (-1) ≠ -1 →
    ∃ i, s.sparse.getD e (-1) = Int.ofNat i ∧ i < s.denseEntities.length ∧
      s.denseEntities.getD i 0 = e)

/-- Refinement: the sparse set realises the abstract finite map `M`
(entity id to stored value), on top of the structural invariant. -/
def Models {α : Type} (s : SparseSet α) (M : Nat → Option α) : Prop :=
  Inv s ∧ (∀ e, s.isPresent e = (M e).isSome) ∧ (∀ e, s.getElement e = M e)

/-- Abstract effect of `addElement`: no change if the key is present,
otherwise bind it to the value. -/
def mAdd {α : Type} (M : Nat → Option α) (e : Nat) (v : α) :
    Nat → Option α :=
  fun k => if (M e).isSome then M k else if k = e then some v else M k

/-- Abstract effect of `removeElement`: unbind the key. -/
def mRemove {α : Type} (M : Nat → Option α) (e : Nat) : Nat → Option α :=
  fun k => if k = e then none else M k

/-! ### Operation sequences, for the round-trip property -/

/-- One sparse-set operation: an `addElement` or a `removeElement` call. -/
inductive SparseOp (α : Type) where
  | addOp (k : Nat) (v : α)
  | removeOp (k : Nat)

/-- Run one operation on the concrete sparse set (keeping only the state). -/
def applyOp {α : Type} [Inhabited α] (s : SparseSet α) :
    SparseOp α → SparseSet α
  | SparseOp.addOp k v => (s.addElement k v).2
  | SparseOp.removeOp k => (s.removeElement k).2

/-- Run a sequence of operations on an initially empty sparse set. -/
def runOps {α : Type} [Inhabited α] (ops : List (SparseOp α)) : SparseSet α :=
  ops.foldl applyOp empty

/-- Run one operation on the abstract map. -/
def applyOpM {α : Type} (M : Nat → Option α) : SparseOp α → (Nat → Option α)
  | SparseOp.addOp k v => mAdd M k v
  | SparseOp.removeOp k => mRemove M k

/-- The net effect of a sequence of operations on the initially empty
abstract map: which keys end up bound, and to what. -/
def runOpsM {α : Type} (ops : List (SparseOp α)) : Nat → Option α :=
  ops.foldl applyOpM (fun _ => none)

end SparseSet

end Utils

/-- A scheduled system, reduced to what the scheduler consults: an identity
(`sysId`, standing for the `ISystem*` pointer) and its `getPriority()` value. -/
structure SysInfo where
  sysId : Nat
  priority : Int
deriving Repr, DecidableEq

/-- A lifecycle hook invocation recorded by the scheduler model: `onStart`,
`onUpdate` or `onStop` of the system with the given id. -/
inductive SysEvent where
  | started (i : Nat)
  | updated (i : Nat)
  | stopped (i : Nat)
deriving Repr, DecidableEq

/-- Modelled from the spec: `Engine::SystemsManager`'s implementation file is
not in the sources (only `SystemsManager.h` is), so the scheduler state is
modelled from the spec's §3 "Scheduler state" and the header's members: the
active ordered set `_systems` (each system paired with its registration
sequence number, the spec's insertion-order tie-break), the pending
`_addedSystems` queue, the pending `_removedSystems` queue of handles, and
the next registration sequence number. -/
structure SystemsManager where
  systems : List (SysInfo × Nat)
  addedSystems : List (SysInfo × Nat)
  removedSystems : List Nat
  nextSeq : Nat
deriving Repr, DecidableEq

namespace SystemsManager

/-- A scheduler with no systems in any state. -/
def emptyMgr : SystemsManager := ⟨[], [], [], 0⟩

/-- Modelled from the spec: the active set is "keyed by
`(priority, insertion sequence)` ascending" — the strict lexicographic order
on (priority, registration sequence) that `LessPriority` realises. -/
def keyLt (x y : SysInfo × Nat) : Bool :=
  decide (x.1.priority < y.1.priority) ||
    (decide (x.1.priority = y.1.priority) && decide (x.2 < y.2))

/-- Ordered insertion into the active set (`std::set<..., LessPriority>`
insert). -/
def insertActive (x : SysInfo × Nat) : List (SysInfo × Nat) → List (SysInfo × Nat)
  | [] => [x]
  | y :: ys => if keyLt x y then x :: y :: ys else y :: insertActive x ys

/-- Modelled from the spec: `SystemsManager::addSystem` — the system "enters
Pending, placed on the add-queue"; it is stamped with the next registration
sequence number. -/
def addSystem (m : SystemsManager) (s : SysInfo) : SystemsManager :=
  { m with addedSystems := m.addedSystems ++ [(s, m.nextSeq)],
           nextSeq := m.nextSeq + 1 }

/-- Modelled from the spec: `SystemsManager::processAddedSystems` — "for every
system on the add-queue, in enqueue order, invoke `onStart`, then insert into
the active ordered set keyed by `(priority, insertion sequence)` ascending".
Returns the new state and the trace of `onStart` invocations. -/
def processAddedSystems (m : SystemsManager) : SystemsManager × List SysEvent :=
  ({ m with systems := m.addedSystems.foldl (fun acc x => insertActive x acc) m.systems,
            addedSystems := [] },
   m.addedSystems.map (fun x => SysEvent.started x.1.sysId))

/-- Modelled from the spec: `SystemsManager::removeSystem` — "if present in
the active set, move it to the remove-queue (state Stopping); it continues to
receive `update` calls until `processRemovedSystems()` runs". The active set
itself is untouched; only the handle is queued. -/
def removeSystem (m : SystemsManager) (i : Nat) : SystemsManager :=
  if m.systems.any (fun x => x.1.sysId = i) then
    { m with removedSystems := m.removedSystems ++ [i] }
  else m

/-- Modelled from the spec: `SystemsManager::processRemovedSystems` — "for
every system on the remove-queue, invoke `onStop`, erase from the active set,
release ownership". Returns the new state and the trace of `onStop`
invocations. -/
def processRemovedSystems (m : SystemsManager) : SystemsManager × List SysEvent :=
  ({ m with systems := m.systems.filter (fun x => !(m.removedSystems.contains x.1.sysId)),
            removedSystems := [] },
   m.removedSystems.map SysEvent.stopped)

/-- Modelled from the spec: `SystemsManager::update` — "iterate the active
set strictly in priority order (ties broken by insertion sequence) and invoke
each system's `onUpdate(deltaTime)`. Does not mutate the active set". The
member function is `const` in the header, so the model returns only the trace
of `onUpdate` invocations. -/
def update (m : SystemsManager) : List SysEvent :=
  m.systems.map (fun x => SysEvent.updated x.1.sysId)

/-- Modelled from the spec: `SystemsManager::stop` — "invoke `onStop` on
every currently active system (engine shutdown path), without requiring them
to go through the remove-queue". `const` in the header, so only the trace is
produced. -/
def stop (m : SystemsManager) : List SysEvent :=
  m.systems.map (fun x => SysEvent.stopped x.1.sysId)

/-- Non-strict comparison associated with `keyLt`: `x` does not come after
`y` in the `(priority, registration sequence)` order. -/
def keyLe (x y : SysInfo × Nat) : Prop := keyLt y x = false

/-- The active set is in ascending `(priority, registration sequence)`
order. -/
def ActiveSorted (m : SystemsManager) : Prop :=
  m.systems.Pairwise keyLe

end SystemsManager

/-- One call made by `GameController::run`'s main loop, in order:
`m_window.update()`, `processAddedSystems()`, `processRemovedSystems()`,
`m_systemsManager.update(dt)` with the delta-time it was passed, and the
final `m_systemsManager.stop()`. Timestamps are abstracted to `Int`. -/
inductive LoopCall where
  | winUpdate
  | procAdded
  | procRemoved
  | sysUpdate (dt : Int)
  | stopAll
deriving Repr, DecidableEq

/-- The body of one full iteration of `GameController::run`'s `while (true)`
loop (one where `m_window.update()` returned false): window processing, the
two queue-processing calls, then `update(dt)`. -/
def tickBlock (dt : Int) : List LoopCall :=
  [LoopCall.winUpdate, LoopCall.procAdded, LoopCall.procRemoved, LoopCall.sysUpdate dt]

/-- The loop of `GameController::run`, embedded over an abstract clock:
`times n` is the value the `n`-th call of
`std::chrono::high_resolution_clock::now()` returns. `n` counts the
remaining iterations before `m_window.update()` reports exit; `dt` is the
current value of the local `dt` variable; `k` is the number of iterations
already completed (each having consumed two clock samples). Each full
iteration samples the clock immediately before and after
`m_systemsManager.update(dt)` and sets `dt` to their difference. -/
def runAux (times : Nat → Int) : Nat → Int → Nat → List LoopCall
  | 0, _, _ => [LoopCall.winUpdate, LoopCall.stopAll]
  | n + 1, dt, k =>
    tickBlock dt ++ runAux times n (times (2 * k + 1) - times (2 * k)) (k + 1)

/-- Embeds `GameController::run`: `dt` starts at `0`, the loop runs `iters` full
iterations before `m_window.update()` returns true, and after the `break`
the controller calls `m_systemsManager.stop()`. -/
def GameControllerRun (times : Nat → Int) (iters : Nat) : List LoopCall :=
  runAux times iters 0 0

/-- The delta-time passed to the `k`-th `update` call of
`GameController::run` (0-based): `0` on the first iteration, then the
difference of the two clock samples taken around the previous iteration's
`update` call. -/
def dtSeq (times : Nat → Int) : Nat → Int
  | 0 => 0
  | k + 1 => times (2 * k + 1) - times (2 * k)

/-- The sequence of delta-times in a call trace, in order of the `update`
calls that received them. -/
def updateDts : List LoopCall → List Int
  | [] => []
  | LoopCall.sysUpdate d :: rest => d :: updateDts rest
  | _ :: rest => updateDts rest

/-- The delta-time passed to the `j`-th remaining `update` call of `runAux`,
when the loop resumes with current delta `dt` after `k` completed
iterations. -/
def dtFrom (times : Nat → Int) (k : Nat) (dt : Int) : Nat → Int
  | 0 => dt
  | j + 1 => times (2 * (k + j) + 1) - times (2 * (k + j))

end Engine

/-! ### List access helpers -/

namespace Engine.Utils

theorem getD_set_self {α : Type} (l : List α) (n : Nat) (a d : α)
    (h : n < l.length) : (l.set n a).getD n d = a := by
  simp [List.getD_eq_getElem?_getD, List.getElem?_set, h]

theorem getD_set_ne {α : Type} (l : List α) {n m : Nat} (a d : α)
    (h : n ≠ m) : (l.set n a).getD m d = l.getD m d := by
  simp [List.getD_eq_getElem?_getD, List.getElem?_set, h]

theorem getD_append_left {α : Type} (l t : List α) (n : Nat) (d : α)
    (h : n < l.length) : (l ++ t).getD n d = l.getD n d := by
  simp [List.getD_eq_getElem?_getD, List.getElem?_append, h]

theorem getD_oob {α : Type} (l : List α) (n : Nat) (d : α)
    (h : l.length ≤ n) : l.getD n d = d := by
  simp [List.getD_eq_getElem?_getD, List.getElem?_eq_none, h]

theorem getD_dropLast {α : Type} (l : List α) (k : Nat) (d : α)
    (h : k < l.length - 1) : l.dropLast.getD k d = l.getD k d := by
  have hk : k < l.length := lt_of_lt_of_le h (Nat.sub_le _ _)
  rw [List.dropLast_eq_take]
  simp [List.getD_eq_getElem?_getD, List.getElem?_take, h, hk]

theorem get?_eq_some_getD {α : Type} (l : List α) (n : Nat) (d : α)
    (h : n < l.length) : l.get? n = some (l.getD n d) := by
  rw [List.get?_eq_getElem?, List.getElem?_eq_getElem h,
    List.getD_eq_getElem?_getD, List.getElem?_eq_getElem h]
  rfl

theorem get?_oob {α : Type} (l : List α) (n : Nat) (h : l.length ≤ n) :
    l.get? n = none := by
  rw [List.get?_eq_getElem?, List.getElem?_eq_none h]

namespace SparseSet

/-! ### Properties of the trailing-sentinel trimming -/

/-- Lemma: `trimTrailingAbsent` splits the list into the trimmed prefix and an
all-`-1` suffix. -/
theorem trimTrailingAbsent_decomp (l : List Int) :
    ∃ t, l = trimTrailingAbsent l ++ t ∧ ∀ x ∈ t, x = -1 := by
  induction l with
  | nil => exact ⟨[], rfl, by simp⟩
  | cons x xs ih =>
    obtain ⟨t, hxs, ht⟩ := ih
    cases htr : trimTrailingAbsent xs with
    | nil =>
      by_cases hx : x = -1
      · refine ⟨x :: xs, by simp [trimTrailingAbsent, htr, hx], ?_⟩
        intro y hy
        rcases List.mem_cons.mp hy with h | h
        · rw [h, hx]
        · exact ht y (by rwa [hxs, htr] at h)
      · refine ⟨t, ?_, ht⟩
        simp only [trimTrailingAbsent, htr]
        simp only [hx, if_false]
        rw [List.singleton_append, List.cons_inj_right]
        rw [hxs, htr, List.nil_append]
    | cons y ys =>
      refine ⟨t, ?_, ht⟩
      simp only [trimTrailingAbsent, htr]
      rw [List.cons_append, List.cons_inj_right, hxs, htr]

/-- The trimmed sparse array never ends with the `-1` sentinel. -/
theorem trimTrailingAbsent_getLast? (l : List Int) :
    (trimTrailingAbsent l).getLast? ≠ some (-1) := by
  induction l with
  | nil => simp [trimTrailingAbsent]
  | cons x xs ih =>
    cases htr : trimTrailingAbsent xs with
    | nil =>
      by_cases hx : x = -1
      · simp [trimTrailingAbsent, htr, hx]
      · simp only [trimTrailingAbsent, htr]
        simp only [hx, if_false, List.getLast?_singleton]
        intro h
        exact hx (Option.some_injective _ h)
    | cons y ys =>
      simp only [trimTrailingAbsent, htr]
      rw [List.getLast?_cons_cons]
      rw [htr] at ih
      exact ih

theorem trimTrailingAbsent_length_le (l : List Int) :
    (trimTrailingAbsent l).length ≤ l.length := by
  obtain ⟨t, hdec, -⟩ := trimTrailingAbsent_decomp l
  have hlen : l.length = (trimTrailingAbsent l).length + t.length := by
    conv_lhs => rw [hdec]
    simp
  omega

theorem trimTrailingAbsent_getD_lt (l : List Int) (k : Nat) (d : Int)
    (h : k < (trimTrailingAbsent l).length) :
    (trimTrailingAbsent l).getD k d = l.getD k d := by
  obtain ⟨t, hdec, -⟩ := trimTrailingAbsent_decomp l
  conv_rhs => rw [hdec]
  rw [getD_append_left _ _ _ _ h]

theorem trimTrailingAbsent_get?_lt (l : List Int) (k : Nat)
    (h : k < (trimTrailingAbsent l).length) :
    (trimTrailingAbsent l).get? k = l.get? k := by
  obtain ⟨t, hdec, -⟩ := trimTrailingAbsent_decomp l
  conv_rhs => rw [hdec]
  rw [get?_eq_some_getD _ _ (-1) h, get?_eq_some_getD _ _ (-1) (by simp; omega),
    getD_append_left _ _ _ _ h]

/-- Entries dropped by the trimming were all `-1`. -/
theorem trimTrailingAbsent_dropped (l : List Int) (k : Nat)
    (h1 : (trimTrailingAbsent l).length ≤ k) (h2 : k < l.length) :
    l.getD k (-1) = -1 := by
  obtain ⟨t, hdec, ht⟩ := trimTrailingAbsent_decomp l
  have hklen : k - (trimTrailingAbsent l).length < t.length := by
    have hlen : l.length = (trimTrailingAbsent l).length + t.length := by
      conv_lhs => rw [hdec]
      simp
    omega
  conv_lhs => rw [hdec]
  rw [List.getD_eq_getElem?_getD, List.getElem?_append_right h1,
    List.getElem?_eq_getElem hklen]
  exact ht _ (List.getElem_mem hklen)

/-- A live entry (in range, non-sentinel) survives the trimming. -/
theorem trimTrailingAbsent_keeps (l : List Int) (k : Nat)
    (h2 : k < l.length) (h3 : l.getD k (-1) ≠ -1) :
    k < (trimTrailingAbsent l).length := by
  by_contra hk
  exact h3 (trimTrailingAbsent_dropped l k (Nat.le_of_not_lt hk) h2)

/-! ### Properties of the growth step -/

theorem growSparse_length (l : List Int) (e : Nat) :
    (growSparse l e).length = max l.length (e + 1) := by
  unfold growSparse
  by_cases h : l.length ≤ e <;> simp [h] <;> omega

theorem lt_growSparse_length (l : List Int) (e : Nat) :
    e < (growSparse l e).length := by
  rw [growSparse_length]; omega

theorem growSparse_getD (l : List Int) (e j : Nat) :
    (growSparse l e).getD j (-1) =
      if j < l.length then l.getD j (-1) else (-1 : Int) := by
  unfold growSparse
  by_cases h : l.length ≤ e
  · simp only [h, if_true]
    by_cases hj : j < l.length
    · rw [getD_append_left _ _ _ _ hj, if_pos hj]
    · rw [if_neg hj]
      by_cases hj2 : j < l.length + (e + 1 - l.length)
      · rw [List.getD_eq_getElem?_getD, List.getElem?_append_right (Nat.le_of_not_lt hj),
          List.getElem?_replicate]
        have : j - l.length < e + 1 - l.length := by omega
        simp [this]
      · rw [getD_oob]
        simp only [List.length_append, List.length_replicate]
        omega
  · simp only [h, if_false]
    by_cases hj : j < l.length
    · rw [if_pos hj]
    · rw [if_neg hj, getD_oob _ _ _ (Nat.le_of_not_lt hj)]

theorem models_empty {α : Type} :
    Models (empty : SparseSet α) (fun _ => none) := by
  refine ⟨⟨rfl, ?_, ?_⟩, ?_, ?_⟩
  · intro i hi; simp [empty] at hi
  · intro e he; simp [empty] at he
  · intro e; simp [empty, isPresent]
  · intro e; simp [empty, getElement]

/-! ### Unfolding equations for the operations -/

theorem addElement_of_present {α : Type} {s : SparseSet α} {e : Nat} (v : α)
    (hp : s.isPresent e = true) : s.addElement e v = (false, s) := by
  simp [addElement, hp]

theorem addElement_of_absent {α : Type} {s : SparseSet α} {e : Nat} (v : α)
    (hp : s.isPresent e = false) :
    s.addElement e v =
      (true,
        ⟨(growSparse s.sparse e).set e (Int.ofNat s.dense.length),
          s.dense ++ [v], s.denseEntities ++ [e]⟩) := by
  simp [addElement, hp]

theorem isPresent_iff {α : Type} (s : SparseSet α) (e : Nat) :
    s.isPresent e = true ↔
      e < s.sparse.length ∧ s.sparse.getD e (-1) ≠ -1 := by
  simp [isPresent]

/-- Rewrites `getElement` in terms of `getD` on the sparse array. -/
theorem getElement_eq {α : Type} (s : SparseSet α) (e : Nat) :
    s.getElement e =
      if e < s.sparse.length then
        match s.sparse.getD e (-1) with
        | Int.ofNat i => s.dense.get? i
        | _ => none
      else none := by
  unfold getElement
  by_cases h : e < s.sparse.length
  · rw [get?_eq_some_getD _ _ (-1) h, if_pos h]
    cases s.sparse.getD e (-1) <;> rfl
  · rw [get?_oob _ _ (Nat.le_of_not_lt h), if_neg h]

theorem ofNat_ne_neg_one (n : Nat) : (Int.ofNat n : Int) ≠ -1 := by
  intro h
  have h2 : (n : Int) = -1 := h
  omega

/-! ### `addElement` refines the abstract map -/

theorem addElement_models {α : Type} {s : SparseSet α} {M : Nat → Option α}
    (hm : Models s M) (e : Nat) (v : α) :
    (s.addElement e v).1 = !(M e).isSome ∧
    Models (s.addElement e v).2 (mAdd M e v) := by
  obtain ⟨⟨hlen, hds, hsd⟩, hpres, hval⟩ := hm
  by_cases hp : s.isPresent e = true
  · have hMe : (M e).isSome = true := by rw [← hpres]; exact hp
    rw [addElement_of_present v hp]
    refine ⟨by simp [hMe], ⟨hlen, hds, hsd⟩, ?_, ?_⟩
    · intro k; rw [hpres k]; simp [mAdd, hMe]
    · intro k; rw [hval k]; simp [mAdd, hMe]
  · have hp' : s.isPresent e = false := by simpa using hp
    have hMe : M e = none := by
      cases hc : M e with
      | none => rfl
      | some w => have h := hpres e; rw [hp', hc] at h; simp at h
    have hne_of_present : ∀ k, s.isPresent k = true → k ≠ e := by
      intro k hk heq; rw [heq, hp'] at hk; exact absurd hk (by simp)
    rw [addElement_of_absent v hp']
    have hofNat : ∀ n : Nat, (Int.ofNat n : Int) ≠ -1 := ofNat_ne_neg_one
    have hsp2len :
        ((growSparse s.sparse e).set e (Int.ofNat s.dense.length)).length =
          max s.sparse.length (e + 1) := by
      rw [List.length_set, growSparse_length]
    have he_lt : e < ((growSparse s.sparse e).set e
        (Int.ofNat s.dense.length)).length := by
      rw [hsp2len]; omega
    have hsp2_self :
        ((growSparse s.sparse e).set e (Int.ofNat s.dense.length)).getD e (-1)
          = Int.ofNat s.dense.length :=
      getD_set_self _ _ _ _ (lt_growSparse_length _ _)
    have hsp2_ne : ∀ j, j ≠ e →
        ((growSparse s.sparse e).set e (Int.ofNat s.dense.length)).getD j (-1)
          = if j < s.sparse.length then s.sparse.getD j (-1) else -1 := by
      intro j hj
      rw [getD_set_ne _ _ _ (fun h => hj h.symm), growSparse_getD]
    refine ⟨by simp [hMe], ⟨?_, ?_, ?_⟩, ?_, ?_⟩
    · -- dense lengths stay equal
      simp [hlen]
    · -- dense slot points back through sparse
      intro i hi
      simp only [List.length_append, List.length_singleton] at hi
      by_cases hilt : i < s.denseEntities.length
      · have hde : (s.denseEntities ++ [e]).getD i 0 = s.denseEntities.getD i 0 :=
          getD_append_left _ _ _ _ hilt
        obtain ⟨hklt, hkeq⟩ := hds i hilt
        have hkp : s.isPresent (s.denseEntities.getD i 0) = true := by
          rw [isPresent_iff]
          exact ⟨hklt, by rw [hkeq]; exact hofNat i⟩
        have hkne := hne_of_present _ hkp
        rw [hde]
        constructor
        · rw [hsp2len]; omega
        · rw [hsp2_ne _ hkne, if_pos hklt, hkeq]
      · have hieq : i = s.denseEntities.length := by omega
        have hde : (s.denseEntities ++ [e]).getD i 0 = e := by
          subst hieq
          rw [List.getD_eq_getElem?_getD, List.getElem?_append_right (le_refl _)]
          simp
        rw [hde]
        refine ⟨he_lt, ?_⟩
        rw [hsp2_self, hieq, hlen]
    · -- live sparse entry is a valid dense index
      intro k hk hkne
      by_cases hke : k = e
      · rw [hke] at hkne ⊢
        refine ⟨s.dense.length, hsp2_self, ?_, ?_⟩
        · simp [hlen]
        · rw [hlen, List.getD_eq_getElem?_getD,
            List.getElem?_append_right (le_refl _)]
          simp
      · rw [hsp2_ne _ hke] at hkne ⊢
        by_cases hklen : k < s.sparse.length
        · rw [if_pos hklen] at hkne ⊢
          obtain ⟨i, hz, hi, hde⟩ := hsd k hklen hkne
          refine ⟨i, hz, ?_, ?_⟩
          · simp; omega
          · rw [getD_append_left _ _ _ _ hi, hde]
        · rw [if_neg hklen] at hkne
          exact absurd rfl hkne
    · -- presence agrees with the abstract map
      intro k
      by_cases hke : k = e
      · rw [hke]
        have h1 : (Int.ofNat s.dense.length : Int) ≠ -1 := hofNat _
        have h2 : mAdd M e v e = some v := by simp [mAdd, hMe]
        rw [h2]
        simp only [isPresent, hsp2_self]
        rw [decide_eq_true he_lt, decide_eq_true h1]
        rfl
      · have hmk : mAdd M e v k = M k := by simp [mAdd, hMe, hke]
        rw [hmk, ← hpres k]
        simp only [isPresent]
        rw [hsp2_ne _ hke]
        by_cases hklen : k < s.sparse.length
        · have h3 : k < ((growSparse s.sparse e).set e
              (Int.ofNat s.dense.length)).length := by
            rw [hsp2len]; omega
          rw [if_pos hklen, decide_eq_true h3, decide_eq_true hklen]
        · rw [if_neg hklen]
          have h4 : ¬((-1 : Int) ≠ -1) := fun h => h rfl
          rw [decide_eq_false h4, decide_eq_false hklen]
          simp
    · -- stored values agree with the abstract map
      intro k
      by_cases hke : k = e
      · rw [hke]
        have hmk : mAdd M e v e = some v := by simp [mAdd, hMe]
        rw [hmk, getElement_eq]
        simp only [if_pos he_lt, hsp2_self]
        rw [List.get?_eq_getElem?, List.getElem?_append_right (le_refl _)]
        simp
      · have hmk : mAdd M e v k = M k := by simp [mAdd, hMe, hke]
        rw [hmk, ← hval k, getElement_eq, getElement_eq]
        by_cases hklen : k < s.sparse.length
        · have hklt2 : k < ((growSparse s.sparse e).set e
              (Int.ofNat s.dense.length)).length := by
            rw [hsp2len]; omega
          rw [if_pos hklen, if_pos hklt2, hsp2_ne _ hke, if_pos hklen]
          cases hz : s.sparse.getD k (-1) with
          | ofNat i =>
            obtain ⟨i2, hz2, hi2, -⟩ := hsd k hklen (by rw [hz]; exact hofNat i)
            rw [hz] at hz2
            have hii : i = i2 := Int.ofNat.inj hz2
            have hid : i < s.dense.length := by rw [hlen]; omega
            simp only
            rw [List.get?_eq_getElem?, List.get?_eq_getElem?,
              List.getElem?_append, if_pos hid]
          | negSucc j => simp
        · rw [if_neg hklen]
          by_cases hklt2 : k < ((growSparse s.sparse e).set e
              (Int.ofNat s.dense.length)).length
          · rw [if_pos hklt2, hsp2_ne _ hke, if_neg hklen]
            rfl
          · rw [if_neg hklt2]

/-! ### `removeElement` unfolding and trim transport -/

theorem removeElement_of_absent {α : Type} [Inhabited α] {s : SparseSet α}
    {e : Nat} (hp : s.isPresent e = false) :
    s.removeElement e = (false, s) := by
  simp [removeElement, hp]

theorem removeElement_of_present {α : Type} [Inhabited α] {s : SparseSet α}
    {e : Nat} (hp : s.isPresent e = true) :
    s.removeElement e =
      (true,
        ⟨trimTrailingAbsent
          ((s.sparse.set
              ((s.denseEntities.set (s.sparse.getD e (-1)).toNat
                  (s.denseEntities.getD (s.dense.length - 1) 0)).getD
                (s.sparse.getD e (-1)).toNat 0)
              (Int.ofNat (s.sparse.getD e (-1)).toNat)).set e (-1)),
          (s.dense.set (s.sparse.getD e (-1)).toNat
            (s.dense.getD (s.dense.length - 1) default)).dropLast,
          (s.denseEntities.set (s.sparse.getD e (-1)).toNat
            (s.denseEntities.getD (s.dense.length - 1) 0)).dropLast⟩) := by
  simp [removeElement, hp]

/-- Trimming the sparse array does not change presence. -/
theorem isPresent_trim {α : Type} (sp : List Int) (dn : List α)
    (de : List Nat) (k : Nat) :
    isPresent ⟨trimTrailingAbsent sp, dn, de⟩ k = isPresent ⟨sp, dn, de⟩ k := by
  simp only [isPresent]
  by_cases h1 : k < (trimTrailingAbsent sp).length
  · have h2 : k < sp.length := lt_of_lt_of_le h1 (trimTrailingAbsent_length_le sp)
    rw [trimTrailingAbsent_getD_lt _ _ _ h1, decide_eq_true h1, decide_eq_true h2]
  · rw [decide_eq_false h1]
    by_cases h2 : k < sp.length
    · have h3 := trimTrailingAbsent_dropped sp k (Nat.le_of_not_lt h1) h2
      rw [decide_eq_true h2, h3]
      simp
    · rw [decide_eq_false h2]
      simp

/-- Trimming the sparse array does not change lookups. -/
theorem getElement_trim {α : Type} (sp : List Int) (dn : List α)
    (de : List Nat) (k : Nat) :
    getElement ⟨trimTrailingAbsent sp, dn, de⟩ k =
      getElement ⟨sp, dn, de⟩ k := by
  rw [getElement_eq, getElement_eq]
  by_cases h1 : k < (trimTrailingAbsent sp).length
  · have h2 : k < sp.length := lt_of_lt_of_le h1 (trimTrailingAbsent_length_le sp)
    rw [if_pos h1, if_pos h2]
    rw [show (SparseSet.mk (trimTrailingAbsent sp) dn de).sparse =
      trimTrailingAbsent sp from rfl, trimTrailingAbsent_getD_lt _ _ _ h1]
  · rw [if_neg h1]
    by_cases h2 : k < sp.length
    · rw [if_pos h2]
      rw [show (SparseSet.mk sp dn de).sparse = sp from rfl,
        trimTrailingAbsent_dropped sp k (Nat.le_of_not_lt h1) h2]
      rfl
    · rw [if_neg h2]

/-- Trimming the sparse array preserves the structural invariant. -/
theorem Inv_trim {α : Type} (sp : List Int) (dn : List α) (de : List Nat)
    (h : Inv ⟨sp, dn, de⟩) : Inv ⟨trimTrailingAbsent sp, dn, de⟩ := by
  obtain ⟨h1, h2, h3⟩ := h
  refine ⟨h1, ?_, ?_⟩
  · intro i hi
    obtain ⟨hlt, heq⟩ := h2 i hi
    have hk : de.getD i 0 < (trimTrailingAbsent sp).length :=
      trimTrailingAbsent_keeps _ _ hlt (by rw [heq]; exact ofNat_ne_neg_one i)
    exact ⟨hk, by rw [show (SparseSet.mk (trimTrailingAbsent sp) dn de).sparse =
      trimTrailingAbsent sp from rfl, trimTrailingAbsent_getD_lt _ _ _ hk]; exact heq⟩
  · intro k hk hkne
    simp only at hk hkne ⊢
    have hk2 : k < sp.length := lt_of_lt_of_le hk (trimTrailingAbsent_length_le sp)
    rw [trimTrailingAbsent_getD_lt _ _ _ hk] at hkne ⊢
    exact h3 k hk2 hkne

/-- Trimming the sparse array preserves the refinement relation. -/
theorem Models_trim {α : Type} (sp : List Int) (dn : List α) (de : List Nat)
    (M : Nat → Option α) (h : Models ⟨sp, dn, de⟩ M) :
    Models ⟨trimTrailingAbsent sp, dn, de⟩ M := by
  obtain ⟨hInv, hpres, hval⟩ := h
  exact ⟨Inv_trim sp dn de hInv,
    fun k => by rw [isPresent_trim]; exact hpres k,
    fun k => by rw [getElement_trim]; exact hval k⟩

/-! ### `removeElement` refines the abstract map -/

theorem removeElement_models {α : Type} [Inhabited α] {s : SparseSet α}
    {M : Nat → Option α} (hm : Models s M) (e : Nat) :
    (s.removeElement e).1 = (M e).isSome ∧
    Models (s.removeElement e).2 (mRemove M e) := by
  obtain ⟨⟨hlen, hds, hsd⟩, hpres, hval⟩ := hm
  by_cases hp : s.isPresent e = true
  case neg =>
    have hp' : s.isPresent e = false := by simpa using hp
    have hMe : M e = none := by
      cases hc : M e with
      | none => rfl
      | some w => have h := hpres e; rw [hp', hc] at h; simp at h
    rw [removeElement_of_absent hp']
    refine ⟨by simp [hMe], ⟨hlen, hds, hsd⟩, ?_, ?_⟩
    · intro k
      by_cases hke : k = e
      · rw [hke, hp']; simp [mRemove, hMe]
      · rw [hpres k]; simp [mRemove, hke]
    · intro k
      by_cases hke : k = e
      · rw [hke, hval e, hMe]; simp [mRemove]
      · rw [hval k]; simp [mRemove, hke]
  case pos =>
    obtain ⟨helt, hene⟩ := (isPresent_iff s e).mp hp
    obtain ⟨iE, hzE, hiE, hdeE⟩ := hsd e helt hene
    have htoNat : (s.sparse.getD e (-1)).toNat = iE := by rw [hzE]; rfl
    have hL0 : 0 < s.dense.length := by omega
    have hdsl := hds (s.dense.length - 1) (by omega)
    have heL_lt : s.denseEntities.getD (s.dense.length - 1) 0 < s.sparse.length :=
      hdsl.1
    have hzL : s.sparse.getD (s.denseEntities.getD (s.dense.length - 1) 0) (-1) =
        Int.ofNat (s.dense.length - 1) := hdsl.2
    have heLe_iff : s.denseEntities.getD (s.dense.length - 1) 0 = e ↔
        iE = s.dense.length - 1 := by
      constructor
      · intro h
        rw [h, hzE] at hzL
        exact Int.ofNat.inj hzL
      · intro h
        rw [← h]
        exact hdeE
    rw [removeElement_of_present hp, htoNat,
      getD_set_self s.denseEntities iE _ 0 (by omega)]
    have hsp2e :
        ((s.sparse.set (s.denseEntities.getD (s.dense.length - 1) 0)
          (Int.ofNat iE)).set e (-1)).getD e (-1) = -1 :=
      getD_set_self _ _ _ _ (by rw [List.length_set]; exact helt)
    have hsp2 : ∀ k, k ≠ e →
        ((s.sparse.set (s.denseEntities.getD (s.dense.length - 1) 0)
          (Int.ofNat iE)).set e (-1)).getD k (-1) =
        if k = s.denseEntities.getD (s.dense.length - 1) 0 then Int.ofNat iE
          else s.sparse.getD k (-1) := by
      intro k hk
      rw [getD_set_ne _ _ _ (fun h => hk h.symm)]
      by_cases hkl : k = s.denseEntities.getD (s.dense.length - 1) 0
      · rw [if_pos hkl, hkl, getD_set_self _ _ _ _ heL_lt]
      · rw [if_neg hkl, getD_set_ne _ _ _ (fun h => hkl h.symm)]
    have hsp2len :
        ((s.sparse.set (s.denseEntities.getD (s.dense.length - 1) 0)
          (Int.ofNat iE)).set e (-1)).length = s.sparse.length := by
      rw [List.length_set, List.length_set]
    have hde2 : ∀ i, i < s.denseEntities.length - 1 →
        ((s.denseEntities.set iE
          (s.denseEntities.getD (s.dense.length - 1) 0)).dropLast).getD i 0 =
        if i = iE then s.denseEntities.getD (s.dense.length - 1) 0
          else s.denseEntities.getD i 0 := by
      intro i hi
      rw [getD_dropLast _ _ _ (by rw [List.length_set]; exact hi)]
      by_cases hii : i = iE
      · rw [if_pos hii, hii, getD_set_self _ _ _ _ (by omega)]
      · rw [if_neg hii, getD_set_ne _ _ _ (fun h => hii h.symm)]
    have hdn2 : ∀ i, i < s.dense.length - 1 →
        ((s.dense.set iE (s.dense.getD (s.dense.length - 1) default)).dropLast).getD
            i default =
        if i = iE then s.dense.getD (s.dense.length - 1) default
          else s.dense.getD i default := by
      intro i hi
      rw [getD_dropLast _ _ _ (by rw [List.length_set]; exact hi)]
      by_cases hii : i = iE
      · rw [if_pos hii, hii, getD_set_self _ _ _ _ (by omega)]
      · rw [if_neg hii, getD_set_ne _ _ _ (fun h => hii h.symm)]
    have hde2len :
        ((s.denseEntities.set iE
          (s.denseEntities.getD (s.dense.length - 1) 0)).dropLast).length =
        s.denseEntities.length - 1 := by
      rw [List.length_dropLast, List.length_set]
    have hdn2len :
        ((s.dense.set iE (s.dense.getD (s.dense.length - 1) default)).dropLast).length
          = s.dense.length - 1 := by
      rw [List.length_dropLast, List.length_set]
    refine ⟨by rw [← hpres e, hp], ?_⟩
    refine Models_trim _ _ _ _ ⟨⟨?_, ?_, ?_⟩, ?_, ?_⟩
    · -- dense lengths stay equal
      rw [hdn2len, hde2len, hlen]
    · -- dense slot points back through sparse
      intro i hi
      rw [hde2len] at hi
      dsimp only at hi ⊢
      rw [hde2 i hi]
      by_cases hii : i = iE
      · rw [if_pos hii]
        have hne : s.denseEntities.getD (s.dense.length - 1) 0 ≠ e := by
          intro hc
          have := heLe_iff.mp hc
          omega
        rw [hsp2 _ hne, if_pos rfl, hsp2len]
        exact ⟨heL_lt, by rw [hii]⟩
      · rw [if_neg hii]
        obtain ⟨hklt, hkeq⟩ := hds i (by omega)
        have hkne_e : s.denseEntities.getD i 0 ≠ e := by
          intro hc
          rw [hc, hzE] at hkeq
          exact hii (Int.ofNat.inj hkeq.symm)
        have hkne_eL : s.denseEntities.getD i 0 ≠
            s.denseEntities.getD (s.dense.length - 1) 0 := by
          intro hc
          rw [hc, hzL] at hkeq
          have := Int.ofNat.inj hkeq
          omega
        rw [hsp2 _ hkne_e, if_neg hkne_eL, hsp2len]
        exact ⟨hklt, hkeq⟩
    · -- live sparse entry is a valid dense index
      intro k hk hkne
      dsimp only at hk hkne ⊢
      rw [hsp2len] at hk
      by_cases hke : k = e
      · rw [hke, hsp2e] at hkne
        exact absurd rfl hkne
      · rw [hsp2 k hke] at hkne ⊢
        by_cases hkeL : k = s.denseEntities.getD (s.dense.length - 1) 0
        · rw [if_pos hkeL] at hkne ⊢
          have hiEne : iE ≠ s.dense.length - 1 := by
            intro hc
            exact hke (by rw [hkeL]; exact heLe_iff.mpr hc)
          have hiE2 : iE < s.denseEntities.length - 1 := by omega
          refine ⟨iE, rfl, by rw [hde2len]; exact hiE2, ?_⟩
          rw [hde2 iE hiE2, if_pos rfl, hkeL]
        · rw [if_neg hkeL] at hkne ⊢
          obtain ⟨i, hz, hi, hde⟩ := hsd k hk hkne
          have hine : i ≠ iE := by
            intro hc
            rw [hc, hdeE] at hde
            exact hke hde.symm
          have hine2 : i ≠ s.dense.length - 1 := by
            intro hc
            rw [← hc] at hkeL
            exact hkeL hde.symm
          have hi2 : i < s.denseEntities.length - 1 := by omega
          refine ⟨i, hz, by rw [hde2len]; exact hi2, ?_⟩
          rw [hde2 i hi2, if_neg hine]
          exact hde
    · -- presence agrees with the abstract map
      intro k
      by_cases hke : k = e
      · rw [hke]
        have h2 : (mRemove M e e).isSome = false := by simp [mRemove]
        rw [h2]
        simp only [isPresent]
        dsimp only
        rw [hsp2e]
        simp
      · have h2 : (mRemove M e k).isSome = (M k).isSome := by simp [mRemove, hke]
        rw [h2, ← hpres k]
        simp only [isPresent]
        dsimp only
        rw [hsp2len, hsp2 k hke]
        by_cases hkeL : k = s.denseEntities.getD (s.dense.length - 1) 0
        · rw [if_pos hkeL]
          have hklt : k < s.sparse.length := by rw [hkeL]; exact heL_lt
          rw [decide_eq_true hklt,
            decide_eq_true (ofNat_ne_neg_one iE),
            decide_eq_true (show s.sparse.getD k (-1) ≠ -1 by
              rw [hkeL, hzL]; exact ofNat_ne_neg_one _)]
        · rw [if_neg hkeL]
    · -- stored values agree with the abstract map
      intro k
      by_cases hke : k = e
      · rw [hke]
        have h2 : mRemove M e e = none := by simp [mRemove]
        rw [h2, getElement_eq]
        dsimp only
        by_cases hklt : e < ((s.sparse.set
            (s.denseEntities.getD (s.dense.length - 1) 0)
            (Int.ofNat iE)).set e (-1)).length
        · rw [if_pos hklt, hsp2e]
          rfl
        · rw [if_neg hklt]
      · have h2 : mRemove M e k = M k := by simp [mRemove, hke]
        rw [h2, ← hval k, getElement_eq, getElement_eq]
        dsimp only
        by_cases hklen : k < s.sparse.length
        · rw [if_pos hklen, if_pos (by rw [hsp2len]; exact hklen), hsp2 k hke]
          by_cases hkeL : k = s.denseEntities.getD (s.dense.length - 1) 0
          · rw [if_pos hkeL]
            have hiEne : iE ≠ s.dense.length - 1 := by
              intro hc
              exact hke (by rw [hkeL]; exact heLe_iff.mpr hc)
            have hiE2 : iE < s.dense.length - 1 := by omega
            have hzk : s.sparse.getD k (-1) = Int.ofNat (s.dense.length - 1) := by
              rw [hkeL, hzL]
            rw [hzk]
            simp only
            rw [get?_eq_some_getD _ _ default (by rw [hdn2len]; exact hiE2),
              get?_eq_some_getD _ _ default (by omega : s.dense.length - 1 < s.dense.length),
              hdn2 iE hiE2, if_pos rfl]
          · rw [if_neg hkeL]
            cases hz : s.sparse.getD k (-1) with
            | ofNat i =>
              obtain ⟨i2, hz2, hi2, hde⟩ := hsd k hklen (by
                rw [hz]; exact ofNat_ne_neg_one i)
              rw [hz] at hz2
              have hii : i = i2 := Int.ofNat.inj hz2
              have hine : i ≠ iE := by
                intro hc
                rw [← hii, hc, hdeE] at hde
                exact hke hde.symm
              have hine2 : i ≠ s.dense.length - 1 := by
                intro hc
                rw [← hii, hc] at hde
                exact hkeL hde.symm
              have hi3 : i < s.dense.length - 1 := by omega
              simp only
              rw [get?_eq_some_getD _ _ default (by rw [hdn2len]; exact hi3),
                get?_eq_some_getD _ _ default (by omega : i < s.dense.length),
                hdn2 i hi3, if_neg hine]
            | negSucc j => rfl
        · rw [if_neg hklen, if_neg (by rw [hsp2len]; exact hklen)]

/-! ### Consequences of the invariant -/

theorem getD_eq_get {α : Type} (l : List α) (i : Nat) (d : α)
    (h : i < l.length) : l.getD i d = l.get ⟨i, h⟩ := by
  have h1 := get?_eq_some_getD l i d h
  rw [List.get?_eq_get h] at h1
  exact Option.some_injective _ h1.symm

/-- The invariant forbids duplicate entity ids in `_denseEntities`. -/
theorem Inv.nodup_denseEntities {α : Type} {s : SparseSet α} (h : Inv s) :
    s.denseEntities.Nodup := by
  obtain ⟨-, hds, -⟩ := h
  rw [List.nodup_iff_injective_get]
  rintro ⟨i, hi⟩ ⟨j, hj⟩ hij
  have hdi := (hds i hi).2
  have hdj := (hds j hj).2
  rw [getD_eq_get _ _ _ hi, hij] at hdi
  rw [getD_eq_get _ _ _ hj] at hdj
  rw [hdi] at hdj
  have := Int.ofNat.inj hdj
  exact Fin.ext this

/-- Under the invariant, `_denseEntities` lists exactly the present ids. -/
theorem mem_denseEntities_iff {α : Type} {s : SparseSet α} (h : Inv s)
    (k : Nat) : k ∈ s.denseEntities ↔ s.isPresent k = true := by
  obtain ⟨-, hds, hsd⟩ := h
  constructor
  · intro hk
    obtain ⟨⟨i, hi⟩, hget⟩ := List.mem_iff_get.mp hk
    obtain ⟨hlt, heq⟩ := hds i hi
    rw [getD_eq_get _ _ _ hi, hget] at hlt heq
    rw [isPresent_iff]
    exact ⟨hlt, by rw [heq]; exact ofNat_ne_neg_one i⟩
  · intro hk
    obtain ⟨hlt, hne⟩ := (isPresent_iff s k).mp hk
    obtain ⟨i, -, hi, hde⟩ := hsd k hlt hne
    rw [getD_eq_get _ _ _ hi] at hde
    rw [← hde]
    exact List.get_mem _ i hi

/-- Under the invariant, `size()` counts exactly the present ids. -/
theorem size_eq_count_present {α : Type} {s : SparseSet α} (h : Inv s) :
    s.size = ((List.range s.sparse.length).filter
      (fun k => s.isPresent k)).length := by
  have hperm : List.Perm s.denseEntities
      ((List.range s.sparse.length).filter (fun k => s.isPresent k)) := by
    rw [List.perm_ext_iff_of_nodup h.nodup_denseEntities
      ((List.nodup_range s.sparse.length).filter _)]
    intro a
    rw [mem_denseEntities_iff h a, List.mem_filter, List.mem_range]
    constructor
    · intro ha
      exact ⟨((isPresent_iff s a).mp ha).1, ha⟩
    · intro ha
      exact ha.2
  rw [size, hperm.length_eq]

/-! ### Folding operation sequences -/

theorem runOps_models {α : Type} [Inhabited α] (ops : List (SparseOp α)) :
    Models (runOps ops) (runOpsM ops) := by
  suffices h : ∀ (s : SparseSet α) (M : Nat → Option α), Models s M →
      Models (ops.foldl applyOp s) (ops.foldl applyOpM M) by
    exact h _ _ models_empty
  induction ops with
  | nil => intro s M h; exact h
  | cons op rest ih =>
    intro s M h
    rw [List.foldl_cons, List.foldl_cons]
    cases op with
    | addOp k v => exact ih _ _ (addElement_models h k v).2
    | removeOp k => exact ih _ _ (removeElement_models h k).2

end SparseSet

end Engine.Utils

/-! ### Scheduler lemmas -/

namespace Engine.SystemsManager

theorem keyLt_asymm {x y : SysInfo × Nat} (h : keyLt x y = true) :
    keyLt y x = false := by
  simp only [keyLt, Bool.or_eq_true, Bool.and_eq_true, decide_eq_true_eq] at h
  by_contra hc
  have h2 : keyLt y x = true := by simpa using hc
  simp only [keyLt, Bool.or_eq_true, Bool.and_eq_true, decide_eq_true_eq] at h2
  omega

theorem keyLt_trans {x y z : SysInfo × Nat} (h1 : keyLt x y = true)
    (h2 : keyLt y z = true) : keyLt x z = true := by
  simp only [keyLt, Bool.or_eq_true, Bool.and_eq_true, decide_eq_true_eq]
    at h1 h2 ⊢
  rcases h1 with h1 | ⟨h1a, h1b⟩ <;> rcases h2 with h2 | ⟨h2a, h2b⟩
  · left; omega
  · left; omega
  · left; omega
  · right; exact ⟨by omega, by omega⟩

theorem mem_insertActive {z x : SysInfo × Nat} :
    ∀ {l : List (SysInfo × Nat)}, z ∈ insertActive x l ↔ z = x ∨ z ∈ l := by
  intro l
  induction l with
  | nil => simp [insertActive]
  | cons y ys ih =>
    rw [insertActive]
    by_cases hk : keyLt x y
    · rw [if_pos hk]
      simp only [List.mem_cons]
    · rw [if_neg hk]
      simp only [List.mem_cons, ih]
      tauto

theorem insertActive_pairwise (x : SysInfo × Nat) :
    ∀ (l : List (SysInfo × Nat)), l.Pairwise keyLe →
      (insertActive x l).Pairwise keyLe := by
  intro l
  induction l with
  | nil => intro h; simp [insertActive, List.Pairwise.nil]
  | cons y ys ih =>
    intro h
    rw [List.pairwise_cons] at h
    obtain ⟨hy, hys⟩ := h
    rw [insertActive]
    by_cases hk : keyLt x y = true
    · rw [if_pos hk, List.pairwise_cons]
      constructor
      · intro z hz
        rcases List.mem_cons.mp hz with hz | hz
        · rw [hz]
          exact keyLt_asymm hk
        · show keyLt z x = false
          by_contra hc
          have hzx : keyLt z x = true := by simpa using hc
          have := keyLt_trans hzx hk
          rw [hy z hz] at this
          exact Bool.false_ne_true this
      · rw [List.pairwise_cons]
        exact ⟨hy, hys⟩
    · have hk' : keyLt x y = false := by simpa using hk
      rw [if_neg (by simp [hk'])]
      rw [List.pairwise_cons]
      constructor
      · intro z hz
        rcases mem_insertActive.mp hz with hz | hz
        · rw [hz]
          exact hk'
        · exact hy z hz
      · exact ih hys

theorem foldl_insertActive_pairwise (q : List (SysInfo × Nat)) :
    ∀ (l : List (SysInfo × Nat)), l.Pairwise keyLe →
      (q.foldl (fun acc x => insertActive x acc) l).Pairwise keyLe := by
  induction q with
  | nil => intro l h; exact h
  | cons x xs ih =>
    intro l h
    rw [List.foldl_cons]
    exact ih _ (insertActive_pairwise x l h)

end Engine.SystemsManager

/-! ### Main-loop lemmas -/

namespace Engine

theorem dtFrom_succ (times : Nat → Int) (k : Nat) (dt : Int) (j : Nat) :
    dtFrom times k dt (j + 1) =
      dtFrom times (k + 1) (times (2 * k + 1) - times (2 * k)) j := by
  cases j with
  | zero => simp [dtFrom]
  | succ j2 =>
    simp only [dtFrom]
    rw [show 2 * (k + (j2 + 1)) + 1 = 2 * (k + 1 + j2) + 1 from by omega,
      show 2 * (k + (j2 + 1)) = 2 * (k + 1 + j2) from by omega]

theorem runAux_structure (times : Nat → Int) :
    ∀ (n : Nat) (dt : Int) (k : Nat),
      runAux times n dt k =
        ((List.range n).map (fun j => tickBlock (dtFrom times k dt j))).flatten
          ++ [LoopCall.winUpdate, LoopCall.stopAll] := by
  intro n
  induction n with
  | zero => intro dt k; simp [runAux]
  | succ n ih =>
    intro dt k
    rw [runAux, ih, List.range_succ_eq_map, List.map_cons, List.map_map]
    have hfun : ((fun j => tickBlock (dtFrom times k dt j)) ∘ Nat.succ) =
        (fun j => tickBlock
          (dtFrom times (k + 1) (times (2 * k + 1) - times (2 * k)) j)) := by
      funext j
      show tickBlock (dtFrom times k dt (j + 1)) = _
      rw [dtFrom_succ]
    rw [hfun, List.flatten_cons,
      show dtFrom times k dt 0 = dt from rfl, List.append_assoc]

theorem dtSeq_eq_dtFrom (times : Nat → Int) (k : Nat) :
    dtSeq times k = dtFrom times 0 0 k := by
  cases k with
  | zero => rfl
  | succ j => simp [dtSeq, dtFrom]

/-- Shared shape of the whole `GameController::run` trace. -/
theorem GameControllerRun_eq (times : Nat → Int) (iters : Nat) :
    GameControllerRun times iters =
      ((List.range iters).map (fun k => tickBlock (dtSeq times k))).flatten
        ++ [LoopCall.winUpdate, LoopCall.stopAll] := by
  rw [GameControllerRun, runAux_structure]
  have hfun : (fun j => tickBlock (dtFrom times 0 0 j)) =
      (fun k => tickBlock (dtSeq times k)) := by
    funext j
    rw [dtSeq_eq_dtFrom]
  rw [hfun]

theorem updateDts_append (l1 l2 : List LoopCall) :
    updateDts (l1 ++ l2) = updateDts l1 ++ updateDts l2 := by
  induction l1 with
  | nil => rfl
  | cons x xs ih => cases x <;> simp [updateDts, ih]

theorem updateDts_join_blocks (l : List Nat) (f : Nat → Int) :
    updateDts ((l.map (fun k => tickBlock (f k))).flatten) = l.map f := by
  induction l with
  | nil => rfl
  | cons x xs ih =>
    rw [List.map_cons, List.flatten_cons, updateDts_append, ih]
    rfl

end Engine

/-! ## Claim theorems -/

open Engine Engine.Utils

set_option maxHeartbeats 4000000 in
/-- C1: for a sparse set holding entities 1, 2, 3 added in that order with
values a, b, c, `removeElement 2` returns true and leaves `dense = [a, c]`
and `denseEntities = [1, 3]` (the last element is moved into the removed
slot), `isPresent 2` is false, `getElement 1 = a` and `getElement 3 = c`;
and after any successful removal the sparse array ends with no trailing run
of absent (`-1`) entries. -/
theorem swapRemove_scenario_and_trim :
    (∀ a b c : Nat,
      (((((SparseSet.empty : SparseSet Nat).addElement 1 a).2.addElement
          2 b).2.addElement 3 c).2.removeElement 2).1 = true ∧
      (((((SparseSet.empty : SparseSet Nat).addElement 1 a).2.addElement
          2 b).2.addElement 3 c).2.removeElement 2).2.dense = [a, c] ∧
      (((((SparseSet.empty : SparseSet Nat).addElement 1 a).2.addElement
          2 b).2.addElement 3 c).2.removeElement 2).2.denseEntities = [1, 3] ∧
      (((((SparseSet.empty : SparseSet Nat).addElement 1 a).2.addElement
          2 b).2.addElement 3 c).2.removeElement 2).2.isPresent 2 = false ∧
      (((((SparseSet.empty : SparseSet Nat).addElement 1 a).2.addElement
          2 b).2.addElement 3 c).2.removeElement 2).2.getElement 1 = some a ∧
      (((((SparseSet.empty : SparseSet Nat).addElement 1 a).2.addElement
          2 b).2.addElement 3 c).2.removeElement 2).2.getElement 3 = some c) ∧
    (∀ (s : SparseSet Nat) (e : Nat),
      (s.removeElement e).1 = true →
        (s.removeElement e).2.sparse.getLast? ≠ some (-1)) := by
  constructor
  · intro a b c
    exact ⟨rfl, rfl, rfl, rfl, rfl, rfl⟩
  · intro s e h
    by_cases hp : s.isPresent e = true
    · rw [SparseSet.removeElement_of_present hp]
      exact SparseSet.trimTrailingAbsent_getLast? _
    · rw [SparseSet.removeElement_of_absent (by simpa using hp)] at h
      exact absurd h (by simp)

theorem swapRemove_scenario_and_trim_witness :
    (((((SparseSet.empty : SparseSet Nat).addElement 1 10).2.addElement
        2 20).2.addElement 3 30).2.removeElement 2).1 = true ∧
    (((((SparseSet.empty : SparseSet Nat).addElement 1 10).2.addElement
        2 20).2.addElement 3 30).2.removeElement 2).2.sparse.getLast? ≠
      some (-1) :=
  ⟨(swapRemove_scenario_and_trim.1 10 20 30).1,
   swapRemove_scenario_and_trim.2 _ 2
     (swapRemove_scenario_and_trim.1 10 20 30).1⟩

/-- C2: adding a present id fails and mutates nothing (so a later lookup
still returns the first value); adding an absent id succeeds, grows the
sparse array to cover the id filling new slots with `-1`, appends the value
and the id to the dense arrays, and records the new dense index in
`sparse[id]`, leaving every other sparse entry unchanged. -/
theorem addElement_spec :
    (∀ (α : Type) (s : SparseSet α) (e : Nat) (v : α),
      s.isPresent e = true →
        s.addElement e v = (false, s) ∧
        (s.addElement e v).2.getElement e = s.getElement e) ∧
    (∀ (α : Type) (s : SparseSet α) (e : Nat) (v : α),
      s.isPresent e = false →
        (s.addElement e v).1 = true ∧
        (s.addElement e v).2.dense = s.dense ++ [v] ∧
        (s.addElement e v).2.denseEntities = s.denseEntities ++ [e] ∧
        (s.addElement e v).2.sparse.length = max s.sparse.length (e + 1) ∧
        (s.addElement e v).2.sparse.getD e (-1) = Int.ofNat s.dense.length ∧
        (∀ j, j ≠ e → j < s.sparse.length →
          (s.addElement e v).2.sparse.getD j (-1) = s.sparse.getD j (-1)) ∧
        (∀ j, j ≠ e → s.sparse.length ≤ j →
          (s.addElement e v).2.sparse.getD j (-1) = -1)) := by
  constructor
  · intro α s e v h
    have heq := SparseSet.addElement_of_present v h
    exact ⟨heq, by rw [heq]⟩
  · intro α s e v h
    have heq := SparseSet.addElement_of_absent v h
    refine ⟨by rw [heq], by rw [heq], by rw [heq], ?_, ?_, ?_, ?_⟩
    · rw [heq]
      dsimp only
      rw [List.length_set, SparseSet.growSparse_length]
    · rw [heq]
      dsimp only
      exact getD_set_self _ _ _ _ (SparseSet.lt_growSparse_length _ _)
    · intro j hj hjlen
      rw [heq]
      dsimp only
      rw [getD_set_ne _ _ _ (fun hh => hj hh.symm),
        SparseSet.growSparse_getD, if_pos hjlen]
    · intro j hj hjge
      rw [heq]
      dsimp only
      rw [getD_set_ne _ _ _ (fun hh => hj hh.symm),
        SparseSet.growSparse_getD, if_neg (Nat.not_lt.mpr hjge)]

theorem addElement_spec_witness :
    (((SparseSet.empty : SparseSet Nat).addElement 1 10).2.addElement
        3 30).1 = true ∧
    (((SparseSet.empty : SparseSet Nat).addElement 1 10).2.addElement
        3 30).2.dense = ((SparseSet.empty : SparseSet Nat).addElement
        1 10).2.dense ++ [30] ∧
    (((SparseSet.empty : SparseSet Nat).addElement 1 10).2.addElement
        3 30).2.sparse.getD 3 (-1) = Int.ofNat 1 ∧
    (((SparseSet.empty : SparseSet Nat).addElement 1 10).2.addElement
        3 30).2.sparse.getD 0 (-1) =
      ((SparseSet.empty : SparseSet Nat).addElement 1 10).2.sparse.getD
        0 (-1) ∧
    (((SparseSet.empty : SparseSet Nat).addElement 1 10).2.addElement
        3 30).2.sparse.getD 5 (-1) = -1 ∧
    ((SparseSet.empty : SparseSet Nat).addElement 5 1).2.addElement 5 2 =
      (false, ((SparseSet.empty : SparseSet Nat).addElement 5 1).2) :=
  ⟨(addElement_spec.2 Nat _ 3 30 (by decide)).1,
   (addElement_spec.2 Nat _ 3 30 (by decide)).2.1,
   (addElement_spec.2 Nat _ 3 30 (by decide)).2.2.2.2.1,
   (addElement_spec.2 Nat _ 3 30 (by decide)).2.2.2.2.2.1 0 (by decide)
     (by decide),
   (addElement_spec.2 Nat _ 3 30 (by decide)).2.2.2.2.2.2 5 (by decide)
     (by decide),
   (addElement_spec.1 Nat _ 5 2 (by decide)).1⟩

/-- C3: both sparse-set operations preserve the structural invariant (under
the abstract-map refinement `Models`, which carries the index round-trip and
the value agreement): lengths of `dense` and `denseEntities` stay equal and
no entity id ever occurs twice in `denseEntities`. -/
theorem sparseSet_ops_preserve_invariant :
    ∀ (s : SparseSet Nat) (M : Nat → Option Nat) (e v : Nat),
      SparseSet.Models s M →
        SparseSet.Models (s.addElement e v).2 (SparseSet.mAdd M e v) ∧
        SparseSet.Models (s.removeElement e).2 (SparseSet.mRemove M e) ∧
        (s.addElement e v).2.dense.length =
          (s.addElement e v).2.denseEntities.length ∧
        (s.removeElement e).2.dense.length =
          (s.removeElement e).2.denseEntities.length ∧
        (s.addElement e v).2.denseEntities.Nodup ∧
        (s.removeElement e).2.denseEntities.Nodup := by
  intro s M e v hm
  have ha := (SparseSet.addElement_models hm e v).2
  have hr := (SparseSet.removeElement_models hm e).2
  exact ⟨ha, hr, ha.1.1, hr.1.1, ha.1.nodup_denseEntities,
    hr.1.nodup_denseEntities⟩

theorem sparseSet_ops_preserve_invariant_witness :
    ((SparseSet.empty : SparseSet Nat).addElement 0 5).2.denseEntities.Nodup ∧
    ((SparseSet.empty : SparseSet Nat).removeElement 0).2.denseEntities.Nodup :=
  ⟨(sparseSet_ops_preserve_invariant SparseSet.empty (fun _ => none) 0 5
      SparseSet.models_empty).2.2.2.2.1,
   (sparseSet_ops_preserve_invariant SparseSet.empty (fun _ => none) 0 5
      SparseSet.models_empty).2.2.2.2.2⟩

/-- C6: for any sequence of add/remove operations starting from the empty
sparse set, presence of every key agrees with the net effect of the
operations (the folded abstract map), `denseEntities` is a duplicate-free
enumeration of exactly the present keys, and `size()` equals the number of
currently-present keys. -/
theorem sparse_roundtrip :
    ∀ (ops : List (SparseSet.SparseOp Nat)),
      (∀ k, (SparseSet.runOps ops).isPresent k =
        (SparseSet.runOpsM ops k).isSome) ∧
      (SparseSet.runOps ops).denseEntities.Nodup ∧
      (∀ k, k ∈ (SparseSet.runOps ops).denseEntities ↔
        (SparseSet.runOpsM ops k).isSome = true) ∧
      (SparseSet.runOps ops).size =
        ((List.range (SparseSet.runOps ops).sparse.length).filter
          (fun k => (SparseSet.runOps ops).isPresent k)).length := by
  intro ops
  obtain ⟨hInv, hpres, hval⟩ := SparseSet.runOps_models ops
  refine ⟨hpres, hInv.nodup_denseEntities, ?_,
    SparseSet.size_eq_count_present hInv⟩
  intro k
  rw [SparseSet.mem_denseEntities_iff hInv k, hpres k]

/-- C7: removing an absent key is a failure-returning no-op: it returns
false and leaves the whole state (sparse, dense, denseEntities) unchanged;
being a total Lean function, it can neither throw nor abort. -/
theorem removeElement_absent_noop :
    ∀ (α : Type) [Inhabited α] (s : SparseSet α) (e : Nat),
      s.isPresent e = false → s.removeElement e = (false, s) := by
  intro α _ s e h
  exact SparseSet.removeElement_of_absent h

theorem removeElement_absent_noop_witness :
    (SparseSet.empty : SparseSet Nat).removeElement 7 =
      (false, SparseSet.empty) :=
  removeElement_absent_noop Nat SparseSet.empty 7 (by decide)

/-- C4: after `processAddedSystems`, `update` invokes the active systems in
ascending priority order with registration order breaking ties — for
A(priority 10), B(5), C(5) registered in that order, the update order is
B, C, A with all three active, and it stays B, C, A after a remove/re-add
cycle; moreover every scheduler operation preserves sortedness of the
active set by `(priority, registration sequence)`. -/
theorem update_priority_order :
    (SystemsManager.update
        (SystemsManager.emptyMgr.addSystem ⟨0, 10⟩ |>.addSystem ⟨1, 5⟩
          |>.addSystem ⟨2, 5⟩ |>.processAddedSystems |>.1) =
      [SysEvent.updated 1, SysEvent.updated 2, SysEvent.updated 0] ∧
     (SystemsManager.emptyMgr.addSystem ⟨0, 10⟩ |>.addSystem ⟨1, 5⟩
        |>.addSystem ⟨2, 5⟩ |>.processAddedSystems |>.1).systems.map
        (fun x => x.1.sysId) = [1, 2, 0] ∧
     SystemsManager.update
        (SystemsManager.emptyMgr.addSystem ⟨0, 10⟩ |>.addSystem ⟨1, 5⟩
          |>.addSystem ⟨2, 5⟩ |>.processAddedSystems |>.1
          |>.removeSystem 0 |>.processRemovedSystems |>.1
          |>.addSystem ⟨0, 10⟩ |>.processAddedSystems |>.1) =
      [SysEvent.updated 1, SysEvent.updated 2, SysEvent.updated 0]) ∧
    (∀ (m : SystemsManager) (s : SysInfo) (i : Nat),
      SystemsManager.ActiveSorted m →
        SystemsManager.ActiveSorted (m.addSystem s) ∧
        SystemsManager.ActiveSorted (m.removeSystem i) ∧
        SystemsManager.ActiveSorted (m.processAddedSystems).1 ∧
        SystemsManager.ActiveSorted (m.processRemovedSystems).1) := by
  constructor
  · exact ⟨by decide, by decide, by decide⟩
  · intro m s i h
    refine ⟨h, ?_, ?_, ?_⟩
    · show (SystemsManager.removeSystem m i).systems.Pairwise _
      rw [SystemsManager.removeSystem]
      split
      · exact h
      · exact h
    · exact SystemsManager.foldl_insertActive_pairwise _ _ h
    · exact List.Pairwise.filter _ h

theorem update_priority_order_witness :
    SystemsManager.ActiveSorted
      (SystemsManager.emptyMgr.addSystem ⟨3, 7⟩) :=
  (update_priority_order.2 SystemsManager.emptyMgr ⟨3, 7⟩ 0
    (by exact List.Pairwise.nil)).1

/-- C5: `update` emits no `onStop` and mutates nothing; a `removeSystem`
issued mid-tick leaves the active set (and hence the update trace) of the
tick unchanged, as does `addSystem`; the removed system's `onStop` is
emitted by the next `processRemovedSystems`, which is also what erases it
from the active set. -/
theorem deferred_system_mutation :
    ∀ (m : SystemsManager) (i : Nat),
      i ∈ m.systems.map (fun x => x.1.sysId) →
        (∀ j, SysEvent.stopped j ∉ SystemsManager.update m) ∧
        (m.removeSystem i).systems = m.systems ∧
        SystemsManager.update (m.removeSystem i) = SystemsManager.update m ∧
        (∀ s, (m.addSystem s).systems = m.systems) ∧
        SysEvent.stopped i ∈ ((m.removeSystem i).processRemovedSystems).2 ∧
        i ∉ ((m.removeSystem i).processRemovedSystems).1.systems.map
          (fun x => x.1.sysId) := by
  intro m i hmem
  obtain ⟨x, hx, hxi⟩ := List.mem_map.mp hmem
  have hany : m.systems.any (fun y => y.1.sysId = i) = true := by
    rw [List.any_eq_true]
    exact ⟨x, hx, by simp [hxi]⟩
  have hrm : m.removeSystem i =
      { m with removedSystems := m.removedSystems ++ [i] } := by
    rw [SystemsManager.removeSystem, if_pos hany]
  refine ⟨?_, ?_, ?_, ?_, ?_, ?_⟩
  · intro j hj
    rw [SystemsManager.update] at hj
    obtain ⟨y, -, hy⟩ := List.mem_map.mp hj
    exact SysEvent.noConfusion hy
  · rw [hrm]
  · rw [hrm]
    rfl
  · intro s
    rfl
  · rw [hrm, SystemsManager.processRemovedSystems]
    dsimp only
    rw [List.map_append]
    exact List.mem_append_right _ (by simp)
  · rw [hrm, SystemsManager.processRemovedSystems]
    dsimp only
    intro hc
    obtain ⟨y, hy, hyi⟩ := List.mem_map.mp hc
    rw [List.mem_filter] at hy
    have h2 := hy.2
    rw [Bool.not_eq_true'] at h2
    have h3 : (m.removedSystems ++ [i]).contains y.1.sysId = true := by
      apply List.elem_eq_true_of_mem
      rw [hyi]
      exact List.mem_append_right _ (by simp)
    rw [h2] at h3
    exact Bool.false_ne_true h3

theorem deferred_system_mutation_witness :
    SysEvent.stopped 4 ∈
      (((((SystemsManager.emptyMgr.addSystem
        ⟨4, 2⟩).processAddedSystems).1).removeSystem
        4).processRemovedSystems).2 :=
  (deferred_system_mutation
    (((SystemsManager.emptyMgr.addSystem ⟨4, 2⟩).processAddedSystems).1) 4
    (by decide)).2.2.2.2.1

/-- C8: `stop()` emits `onStop` exactly once for every currently active
system and never for an inactive one, and it does not consult the remove
queue at all. -/
theorem stop_invokes_onStop_once :
    ∀ (m : SystemsManager),
      (m.systems.map (fun x => x.1.sysId)).Nodup →
        (∀ i, i ∈ m.systems.map (fun x => x.1.sysId) →
          (SystemsManager.stop m).count (SysEvent.stopped i) = 1) ∧
        (∀ i, i ∉ m.systems.map (fun x => x.1.sysId) →
          (SystemsManager.stop m).count (SysEvent.stopped i) = 0) ∧
        (∀ q, SystemsManager.stop { m with removedSystems := q } =
          SystemsManager.stop m) := by
  intro m hnd
  have hmap : SystemsManager.stop m =
      (m.systems.map (fun x => x.1.sysId)).map SysEvent.stopped := by
    rw [SystemsManager.stop, List.map_map]
    rfl
  have hinj : Function.Injective SysEvent.stopped := by
    intro a b hab
    exact SysEvent.stopped.inj hab
  refine ⟨?_, ?_, fun q => rfl⟩
  · intro i hi
    rw [hmap, List.count_map_of_injective _ _ hinj]
    exact List.count_eq_one_of_mem hnd hi
  · intro i hi
    rw [hmap, List.count_map_of_injective _ _ hinj]
    exact List.count_eq_zero_of_not_mem hi

theorem stop_invokes_onStop_once_witness :
    (SystemsManager.stop
      ((((SystemsManager.emptyMgr.addSystem ⟨1, 1⟩).addSystem
          ⟨2, 2⟩).processAddedSystems).1)).count (SysEvent.stopped 1) = 1 :=
  (stop_invokes_onStop_once
    ((((SystemsManager.emptyMgr.addSystem ⟨1, 1⟩).addSystem
        ⟨2, 2⟩).processAddedSystems).1) (by decide)).1 1 (by decide)

/-- C9: every iteration of `GameController::run`'s loop performs, in order,
window processing, `processAddedSystems`, `processRemovedSystems`, then
`update(dt)`; the trace is exactly the concatenation of such blocks, and the
final call of the whole run, after the loop exits, is `stop()`. -/
theorem run_call_order :
    ∀ (times : Nat → Int) (iters : Nat),
      GameControllerRun times iters =
        ((List.range iters).map
          (fun k => tickBlock (dtSeq times k))).flatten
          ++ [LoopCall.winUpdate, LoopCall.stopAll] ∧
      (GameControllerRun times iters).getLast? = some LoopCall.stopAll := by
  intro times iters
  refine ⟨GameControllerRun_eq times iters, ?_⟩
  rw [GameControllerRun_eq times iters,
    show ((List.range iters).map
        (fun k => tickBlock (dtSeq times k))).flatten
        ++ [LoopCall.winUpdate, LoopCall.stopAll] =
      (((List.range iters).map
        (fun k => tickBlock (dtSeq times k))).flatten
        ++ [LoopCall.winUpdate]) ++ [LoopCall.stopAll] from by simp,
    List.getLast?_concat]

/-- C10: the first `update` call of `GameController::run` receives
deltaTime 0; the `(k+1)`-th receives exactly the difference of the two
clock samples taken immediately around the `k`-th `update` call — nothing
else in the iteration (window processing, queue processing) is measured. -/
theorem run_deltaTime_measurement :
    ∀ (times : Nat → Int) (iters : Nat),
      updateDts (GameControllerRun times iters) =
        (List.range iters).map (dtSeq times) ∧
      dtSeq times 0 = 0 ∧
      (∀ k, dtSeq times (k + 1) = times (2 * k + 1) - times (2 * k)) := by
  intro times iters
  refine ⟨?_, rfl, fun k => rfl⟩
  rw [GameControllerRun_eq, updateDts_append, updateDts_join_blocks,
    show updateDts [LoopCall.winUpdate, LoopCall.stopAll] = [] from rfl,
    List.append_nil]
